import Mathlib

/-!
Shallow embedding of the mipt-mips cache replacement module
(`CacheReplacement.cpp`) and of the byte-order helpers (`endian.h`),
with proofs of the behavioural properties stated in the specification.

Machine integers are modelled as `Nat`/`Int`; `std::size_t` conversions
are explicit `% 2^64`; fallible operations return `Option`/`Except`.
-/

/-! ## endian.h -/

/-- Loop body chain of `pack_array_le`: `value |= array[i] << (i * CHAR_BIT)`,
iterating over the remaining bytes with the current index `i`. -/
def pack_array_le_go : List Nat → Nat → Nat → Nat
  | [], _, value => value
  | b :: bs, i, value => pack_array_le_go bs (i + 1) (value ||| (b <<< (8 * i)))

/-- `pack_array_le<T>`: little-endian packing of a byte array into a value. -/
def pack_array_le (arr : List Nat) : Nat := pack_array_le_go arr 0 0

/-- Loop body chain of `pack_array_be`:
`value |= array[i] << ((array.size() - i - 1) * CHAR_BIT)`; the first `Nat`
argument is the (fixed) total array size. -/
def pack_array_be_go : List Nat → Nat → Nat → Nat → Nat
  | [], _, _, value => value
  | b :: bs, n, i, value => pack_array_be_go bs n (i + 1) (value ||| (b <<< (8 * (n - i - 1))))

/-- `pack_array_be<T>`: big-endian packing of a byte array into a value. -/
def pack_array_be (arr : List Nat) : Nat := pack_array_be_go arr arr.length 0 0

/-- `unpack_array_le<T>`: `array[i] = Byte( value >> (i * CHAR_BIT))` for a
`bytewidth<T> = n` byte array; the `Byte` cast keeps the low 8 bits. -/
def unpack_array_le (n : Nat) (v : Nat) : List Nat :=
  (List.range n).map (fun i => (v >>> (8 * i)) % 256)

/-- `unpack_array_be<T>`: `array[i] = Byte( value >> ((array.size() - i - 1) * CHAR_BIT))`. -/
def unpack_array_be (n : Nat) (v : Nat) : List Nat :=
  (List.range n).map (fun i => (v >>> (8 * (n - i - 1))) % 256)

/-! ## LRUCacheInfo

The C++ class keeps a `std::list<std::size_t> lru_list` (head = most recently
used) together with `std::unordered_map<std::size_t, iterator> lru_hash`
mapping a way to the list node holding it.  List nodes are modelled as cells
`(id, way)` where `id` is a stable node identity (the iterator target):
`splice` moves a node without changing its identity, while `insert` creates a
node with a fresh identity (`next_id`).  The hash stores `(way, id)` pairs. -/

structure LRUState where
  lru_list : List (Nat × Nat)
  lru_hash : List (Nat × Nat)
  ways : Nat
  next_id : Nat
deriving DecidableEq, Repr

/-- `unordered_map::find` returning the mapped node identity. -/
def hash_find (h : List (Nat × Nat)) (way : Nat) : Option Nat :=
  Option.map (fun p => p.2) (h.find? (fun p => p.1 == way))

/-- `unordered_map::emplace`: inserts only when the key is not present. -/
def hash_emplace (h : List (Nat × Nat)) (way id : Nat) : List (Nat × Nat) :=
  match h.find? (fun p => p.1 == way) with
  | some _ => h
  | none => (way, id) :: h

/-- `unordered_map::insert_or_assign`. -/
def hash_insert_or_assign (h : List (Nat × Nat)) (way id : Nat) : List (Nat × Nat) :=
  match h.find? (fun p => p.1 == way) with
  | some _ => h.map (fun p => if p.1 == way then (way, id) else p)
  | none => (way, id) :: h

/-- `unordered_map::erase` by key. -/
def hash_erase (h : List (Nat × Nat)) (way : Nat) : List (Nat × Nat) :=
  h.eraseP (fun p => p.1 == way)

/-- One iteration of the constructor loop:
`lru_list.push_front(i); lru_hash.emplace(i, lru_list.begin())`. -/
def lru_new_step (s : LRUState) (i : Nat) : LRUState :=
  { s with lru_list := (s.next_id, i) :: s.lru_list,
           lru_hash := hash_emplace s.lru_hash i s.next_id,
           next_id := s.next_id + 1 }

/-- `LRUCacheInfo::LRUCacheInfo(ways)`: pushes ways `0, …, ways-1` to the
front in turn, so the final head is way `ways-1` and the tail is way `0`.
(The C++ `assert(ways != 0)` is a debug assertion, not an exception; with
`ways = 0` the loop simply does not run.) -/
def lru_new (ways : Nat) : LRUState :=
  (List.range ways).foldl lru_new_step
    { lru_list := [], lru_hash := [], ways := ways, next_id := 0 }

/-- `LRUCacheInfo::touch(way)`: splice the way's node to the head.
`none` models the failed `assert(lru_it != lru_hash.end())`. -/
def lru_touch (s : LRUState) (way : Nat) : Option LRUState :=
  match hash_find s.lru_hash way with
  | none => none
  | some id =>
    match s.lru_list.find? (fun c => c.1 == id) with
    | none => none
    | some cell =>
      some { s with lru_list := cell :: s.lru_list.eraseP (fun c => c.1 == id) }

/-- `LRUCacheInfo::set_to_erase(way)`: splice the way's node to the tail. -/
def lru_set_to_erase (s : LRUState) (way : Nat) : Option LRUState :=
  match hash_find s.lru_hash way with
  | none => none
  | some id =>
    match s.lru_list.find? (fun c => c.1 == id) with
    | none => none
    | some cell =>
      some { s with lru_list := s.lru_list.eraseP (fun c => c.1 == id) ++ [cell] }

/-- `LRUCacheInfo::update()`: pop the tail element, re-insert the same way at
the head as a fresh node, and `insert_or_assign` the hash to the new node.
`none` models the undefined `back()` on an empty list. -/
def lru_update (s : LRUState) : Option (LRUState × Nat) :=
  match s.lru_list.getLast? with
  | none => none
  | some cell =>
    some ({ s with lru_list := (s.next_id, cell.2) :: s.lru_list.dropLast,
                   lru_hash := hash_insert_or_assign s.lru_hash cell.2 s.next_id,
                   next_id := s.next_id + 1 }, cell.2)

/-- `LRUCacheInfo::erase_lru_element()`: pop the tail and erase its way from
the hash. -/
def erase_lru_element (s : LRUState) : Option LRUState :=
  match s.lru_list.getLast? with
  | none => none
  | some cell =>
    some { s with lru_list := s.lru_list.dropLast, lru_hash := hash_erase s.lru_hash cell.2 }

/-- `LRUCacheInfo::allocate(way)`: evict the tail when the hash is full, then
push the way at the head; the hash insertion is an `emplace`, which silently
does nothing when the key is already present. -/
def lru_allocate (s : LRUState) (way : Nat) : Option LRUState :=
  match (if s.ways ≤ s.lru_hash.length then erase_lru_element s else some s) with
  | none => none
  | some s1 =>
    some { s1 with lru_list := (s1.next_id, way) :: s1.lru_list,
                   lru_hash := hash_emplace s1.lru_hash way s1.next_id,
                   next_id := s1.next_id + 1 }

/-- Run `k` consecutive `update()` calls, collecting the returned ways in
call order. -/
def lru_run_updates : LRUState → Nat → Option (LRUState × List Nat)
  | s, 0 => some (s, [])
  | s, k + 1 =>
    match lru_update s with
    | none => none
    | some (s1, w) =>
      match lru_run_updates s1 k with
      | none => none
      | some (s2, ws) => some (s2, w :: ws)

/-- The way sequence (head = MRU) of a state's recency list. -/
def lru_ways_of (s : LRUState) : List Nat := s.lru_list.map (fun c => c.2)

/-- Recency list contents after `t` updates of a fresh `n`-way policy:
`reverse (map (fun i => (i + t) % n) (range n))`. -/
def lru_rot (n t : Nat) : List Nat :=
  ((List.range n).map (fun i => (i + t) % n)).reverse

/-! ## Pseudo_LRUCacheInfo

The `core::tree<node>` built by `construct_tree` is always a perfect binary
tree, modelled by `PTree`.  Every node carries the `node` payload: an `int`
`value` (a way index for leaves, a negative construction counter for internal
nodes) and a `std::size_t` `pointer` used as the Left/Right direction flag. -/

def Left : Nat := 0

def Right : Nat := 1

inductive PTree where
  | pleaf (value : Int) (pointer : Nat)
  | pnode (value : Int) (pointer : Nat) (l : PTree) (r : PTree)
deriving DecidableEq, Repr

/-- The `value` field of a tree node's payload. -/
def ptree_value : PTree → Int
  | PTree.pleaf v _ => v
  | PTree.pnode v _ _ _ => v

/-- `Pseudo_LRUCacheInfo::reverse_flag`. -/
def reverse_flag (f : Nat) : Nat := if f == Left then Right else Left

/-- `Pseudo_LRUCacheInfo::which_sibling`: a node is a Left child iff its
construction-time `value` is even (C++ `value % 2 == 0`; for the negative
internal values truncated and Euclidean remainder agree on evenness). -/
def which_sibling (t : PTree) : Nat :=
  if ptree_value t % 2 == 0 then Left else Right

/-- `Pseudo_LRUCacheInfo::construct_tree`, driven by the remaining depth
`max_depth - level`.  Arguments: remaining depth, this node's `value` and
`pointer`, then the current `node_iterator` and `leaf_iterator` counters;
returns the subtree and the updated counters.  At remaining depth 1 the two
children are leaves labelled with consecutive `leaf_iterator` values; deeper
nodes insert two internal children labelled with consecutive `node_iterator`
values (flag `Left`), the left subtree being completed before the right. -/
def construct_tree : Nat → Int → Nat → Int → Int → PTree × Int × Int
  | 0, value, pointer, ni, li => (PTree.pleaf value pointer, ni, li)
  | 1, value, pointer, ni, li =>
    (PTree.pnode value pointer (PTree.pleaf li 0) (PTree.pleaf (li + 1) 0), ni, li + 2)
  | r + 2, value, pointer, ni, li =>
    let lres := construct_tree (r + 1) ni Left (ni + 2) li
    let rres := construct_tree (r + 1) (ni + 1) Left lres.2.1 lres.2.2
    (PTree.pnode value pointer lres.1 rres.1, rres.2.1, rres.2.2)

/-- The tree built by the `Pseudo_LRUCacheInfo` constructor for a given
depth: the root's `value` is the initial `node_iterator = INT8_MIN = -128`
(the constructor does not increment it for the root), its `pointer` defaults
to `0`, and `construct_tree` starts with counters `(-128, 0)`. -/
def pseudo_build (depth : Nat) : PTree :=
  (construct_tree depth (-128) 0 (-128) 0).1

/-- `Pseudo_LRUCacheInfo::touch`: depth-first search for the first node whose
`value` matches, then walk back to the root; whenever the parent's flag points
to the side of the child just ascended from (`which_sibling`), flip it.
Returns the updated subtree and whether the value was found in it. -/
def touch_go : PTree → Int → PTree × Bool
  | PTree.pleaf v p, way => (PTree.pleaf v p, v == way)
  | PTree.pnode v p l r, way =>
    if v == way then (PTree.pnode v p l r, true)
    else
      match touch_go l way with
      | (l1, true) =>
        (PTree.pnode v (if which_sibling l == p then reverse_flag p else p) l1 r, true)
      | _ =>
        match touch_go r way with
        | (r1, true) =>
          (PTree.pnode v (if which_sibling r == p then reverse_flag p else p) l r1, true)
        | _ => (PTree.pnode v p l r, false)

/-- `Pseudo_LRUCacheInfo::touch(way)` on the whole tree. -/
def pseudo_touch (t : PTree) (way : Int) : PTree := (touch_go t way).1

/-- The root-to-leaf walk of `Pseudo_LRUCacheInfo::update()`: while the node
has children, follow the `Left`/`Right` flag; return the reached `value`. -/
def victim_walk : PTree → Int
  | PTree.pleaf v _ => v
  | PTree.pnode _ p l r => if p == Left then victim_walk l else victim_walk r

/-- Conversion of the `int` node `value` to the `std::size_t` return type. -/
def int_to_size_t (v : Int) : Nat := (v % (2 : Int) ^ 64).toNat

/-- `Pseudo_LRUCacheInfo::update()`: walk to the flagged node, `touch` its
value, and return the value as `std::size_t`. -/
def pseudo_update (t : PTree) : PTree × Nat :=
  (pseudo_touch t (victim_walk t), int_to_size_t (victim_walk t))

/-- The loop of `Pseudo_LRUCacheInfo::calculate_depth`, with explicit fuel:
`for (numerator = ways; numerator != 1; numerator /= 2)` throws when an odd
`numerator ≠ 1` is met.  `none` means the fuel ran out, i.e. the loop did not
terminate within `fuel` iterations (for `ways = 0` it never does). -/
def calculate_depth_loop : Nat → Nat → Nat → Option (Except String Nat)
  | 0, _, _ => none
  | fuel + 1, numerator, i =>
    if numerator = 1 then some (Except.ok i)
    else if numerator % 2 ≠ 0 then
      some (Except.error "Number of ways must be the power of 2!")
    else calculate_depth_loop fuel (numerator / 2) (i + 1)

/-- `Pseudo_LRUCacheInfo::calculate_depth`; `ways` iterations of fuel are
enough for every `ways ≥ 1` (the loop needs at most `log2 ways + 1`). -/
def calculate_depth (ways : Nat) : Option (Except String Nat) :=
  calculate_depth_loop ways ways 0

/-- `Pseudo_LRUCacheInfo::Pseudo_LRUCacheInfo(ways)`: compute the depth (this
may throw, or never terminate for `ways = 0`) and build the tree. -/
def pseudo_lru_new (ways : Nat) : Option (Except String PTree) :=
  match calculate_depth ways with
  | none => none
  | some (Except.error e) => some (Except.error e)
  | some (Except.ok d) => some (Except.ok (pseudo_build d))

/-! ## create_cache_replacement -/

deriving instance DecidableEq for Except

inductive PolicyInstance where
  | lruPolicy (s : LRUState)
  | pseudoPolicy (t : PTree)
deriving DecidableEq, Repr

/-- The literal appended after the offending name in the unknown-policy
message (`"polices"` is the source's own typo): note it advertises
`pseudo-LRU` (lower-case `p`) although only the exact string `Pseudo-LRU`
is accepted. -/
def supported_polices_note : String :=
  "\" replacement policy is not defined, supported polices are:\nLRU\npseudo-LRU\n"

/-- The message of the unknown-policy `CacheReplacementException`. -/
def unknown_policy_message (name : String) : String :=
  "\"" ++ name ++ supported_polices_note

/-- `create_cache_replacement(name, ways)`.  `none` models a construction
that does not terminate (Pseudo-LRU with `ways = 0`). -/
def create_cache_replacement (name : String) (ways : Nat) : Option (Except String PolicyInstance) :=
  if name == "LRU" then some (Except.ok (PolicyInstance.lruPolicy (lru_new ways)))
  else if name == "Pseudo-LRU" then
    match pseudo_lru_new ways with
    | none => none
    | some (Except.error e) => some (Except.error e)
    | some (Except.ok t) => some (Except.ok (PolicyInstance.pseudoPolicy t))
  else some (Except.error (unknown_policy_message name))

/-! ## String containment (for the diagnostic-message claims) -/

/-- Does the text start with the pattern (first argument)? -/
def starts_with : List Char → List Char → Bool
  | [], _ => true
  | _ :: _, [] => false
  | c :: cs, d :: ds => c == d && starts_with cs ds

/-- Does the text (first argument) contain the pattern as a contiguous
substring? -/
def has_sub_chars : List Char → List Char → Bool
  | [], pat => pat.isEmpty
  | t :: ts, pat => starts_with pat (t :: ts) || has_sub_chars ts pat

/-- Substring test on strings. -/
def str_has_sub (s pat : String) : Bool := has_sub_chars s.toList pat.toList

/-! ## Reachable Exact-LRU states and their invariant -/

/-- States reachable from a freshly constructed Exact-LRU policy by
successful operations; `allocate` is restricted to a way that is either not
currently tracked or is the way about to be evicted (the tail of a full
policy) — without that restriction the consistency invariant fails. -/
inductive LRUReach : LRUState → Prop where
  | init (n : Nat) (h : 1 ≤ n) : LRUReach (lru_new n)
  | touch (s : LRUState) (way : Nat) (s1 : LRUState) (h : LRUReach s)
      (hs : lru_touch s way = some s1) : LRUReach s1
  | set_to_erase (s : LRUState) (way : Nat) (s1 : LRUState) (h : LRUReach s)
      (hs : lru_set_to_erase s way = some s1) : LRUReach s1
  | update (s : LRUState) (s1 : LRUState) (w : Nat) (h : LRUReach s)
      (hs : lru_update s = some (s1, w)) : LRUReach s1
  | allocate (s : LRUState) (way : Nat) (s1 : LRUState) (h : LRUReach s)
      (hway : hash_find s.lru_hash way = none ∨
        (s.ways ≤ s.lru_hash.length ∧ Option.map (fun c => c.2) s.lru_list.getLast? = some way))
      (hs : lru_allocate s way = some s1) : LRUReach s1

/-- The mutual-consistency invariant of the list and the hash, as claimed by
the specification: the mapping and the sequence mention exactly the same
ways, the node recorded for a way holds exactly that way, the sequence has no
duplicate ways, and its length never exceeds `ways`. -/
def LRUConsistent (s : LRUState) : Prop :=
  (∀ way id, hash_find s.lru_hash way = some id → (id, way) ∈ s.lru_list) ∧
  (∀ c ∈ s.lru_list, hash_find s.lru_hash c.2 = some c.1) ∧
  (lru_ways_of s).Nodup ∧
  s.lru_list.length ≤ s.ways

/-- Internal strengthening of `LRUConsistent` closed under the reachable
operations: node identities are unique and below `next_id`, the hash keys
are unique, the hash and the list have equal sizes, and the list is never
empty. -/
def LRUWF (s : LRUState) : Prop :=
  (s.lru_list.map (fun c => c.1)).Nodup ∧
  (s.lru_list.map (fun c => c.2)).Nodup ∧
  (s.lru_hash.map (fun p => p.1)).Nodup ∧
  (∀ way id, hash_find s.lru_hash way = some id ↔ (id, way) ∈ s.lru_list) ∧
  s.lru_hash.length = s.lru_list.length ∧
  s.lru_list.length ≤ s.ways ∧
  1 ≤ s.lru_list.length ∧
  (∀ c ∈ s.lru_list, c.1 < s.next_id)

/-! ## Bitwise helper lemmas -/

theorem shiftLeft_or_distrib (x y k : Nat) : (x ||| y) <<< k = (x <<< k) ||| (y <<< k) := by
  apply Nat.eq_of_testBit_eq
  intro j
  simp [Nat.testBit_shiftLeft, Nat.testBit_or, Bool.and_or_distrib_left]

theorem shiftLeft_or_eq_add {y : Nat} (x k : Nat) (h : y < 2 ^ k) :
    (x <<< k) ||| y = x <<< k + y := by
  rw [Nat.shiftLeft_eq, Nat.mul_comm]
  exact (Nat.mul_add_lt_is_or h x).symm

theorem pack_array_le_go_or (bs : List Nat) : ∀ i v,
    pack_array_le_go bs i v = v ||| pack_array_le_go bs i 0 := by
  induction bs with
  | nil => intro i v; simp [pack_array_le_go]
  | cons b bs ih =>
    intro i v
    rw [pack_array_le_go, pack_array_le_go, ih (i + 1) (v ||| b <<< (8 * i)),
      ih (i + 1) (0 ||| b <<< (8 * i))]
    simp [Nat.or_assoc]

theorem pack_array_le_go_shift (bs : List Nat) : ∀ i,
    pack_array_le_go bs (i + 1) 0 = (pack_array_le_go bs i 0) <<< 8 := by
  induction bs with
  | nil => intro i; simp [pack_array_le_go]
  | cons b bs ih =>
    intro i
    rw [pack_array_le_go, pack_array_le_go,
      pack_array_le_go_or bs (i + 1 + 1) (0 ||| b <<< (8 * (i + 1))),
      pack_array_le_go_or bs (i + 1) (0 ||| b <<< (8 * i)),
      ih (i + 1)]
    simp only [Nat.zero_or, shiftLeft_or_distrib, ← Nat.shiftLeft_add]
    have h8 : 8 * i + 8 = 8 * (i + 1) := by ring
    rw [h8]

theorem unpack_array_le_succ (n v : Nat) :
    unpack_array_le (n + 1) v = v % 256 :: unpack_array_le n (v >>> 8) := by
  unfold unpack_array_le
  rw [List.range_succ_eq_map, List.map_cons, List.map_map]
  have hh : v >>> (8 * 0) % 256 = v % 256 := by simp
  have ht : List.map ((fun i => v >>> (8 * i) % 256) ∘ Nat.succ) (List.range n) =
      List.map (fun i => (v >>> 8) >>> (8 * i) % 256) (List.range n) := by
    apply List.map_congr_left
    intro a _
    simp only [Function.comp_apply]
    have h8 : 8 * Nat.succ a = 8 + 8 * a := by omega
    rw [h8, Nat.shiftRight_add]
  rw [ht, hh]

theorem pack_unpack_le (n : Nat) : ∀ v, pack_array_le (unpack_array_le n v) = v % 2 ^ (8 * n) := by
  induction n with
  | zero =>
    intro v
    simp [unpack_array_le, pack_array_le, pack_array_le_go, Nat.mod_one]
  | succ n ih =>
    intro v
    rw [unpack_array_le_succ, pack_array_le, pack_array_le_go,
      pack_array_le_go_or _ (0 + 1), pack_array_le_go_shift]
    have hpack : pack_array_le_go (unpack_array_le n (v >>> 8)) 0 0 = (v >>> 8) % 2 ^ (8 * n) :=
      ih (v >>> 8)
    rw [hpack]
    have h1 : (0 : Nat) ||| (v % 256) <<< (8 * 0) = v % 256 := by simp
    have hm : v % 256 < 2 ^ 8 := by
      have h2 : (2 : Nat) ^ 8 = 256 := by norm_num
      rw [h2]
      exact Nat.mod_lt v (by norm_num)
    rw [h1, Nat.or_comm, shiftLeft_or_eq_add _ 8 hm,
      Nat.shiftLeft_eq, Nat.shiftRight_eq_div_pow]
    have hpow : (2 : Nat) ^ (8 * (n + 1)) = 256 * 2 ^ (8 * n) := by
      have : 8 * (n + 1) = 8 + 8 * n := by ring
      rw [this, pow_add]
      norm_num
    rw [hpow, Nat.mod_mul]
    have h256 : (2 : Nat) ^ 8 = 256 := by norm_num
    rw [h256]
    generalize v / 256 % 2 ^ (8 * n) = X
    generalize v % 256 = y
    omega

theorem pack_array_be_go_or (bs : List Nat) : ∀ n i v,
    pack_array_be_go bs n i v = v ||| pack_array_be_go bs n i 0 := by
  induction bs with
  | nil => intro n i v; simp [pack_array_be_go]
  | cons b bs ih =>
    intro n i v
    rw [pack_array_be_go, pack_array_be_go, ih n (i + 1) (v ||| b <<< (8 * (n - i - 1))),
      ih n (i + 1) (0 ||| b <<< (8 * (n - i - 1)))]
    simp [Nat.or_assoc]

theorem pack_array_be_go_shift (bs : List Nat) : ∀ n i v,
    pack_array_be_go bs (n + 1) (i + 1) v = pack_array_be_go bs n i v := by
  induction bs with
  | nil => intro n i v; simp [pack_array_be_go]
  | cons b bs ih =>
    intro n i v
    rw [pack_array_be_go, pack_array_be_go, ih n (i + 1) _]
    have h1 : n + 1 - (i + 1) - 1 = n - i - 1 := by omega
    rw [h1]

theorem unpack_array_be_succ (n v : Nat) :
    unpack_array_be (n + 1) v = (v >>> (8 * n)) % 256 :: unpack_array_be n v := by
  unfold unpack_array_be
  rw [List.range_succ_eq_map, List.map_cons, List.map_map]
  have hh : v >>> (8 * (n + 1 - 0 - 1)) % 256 = v >>> (8 * n) % 256 := by
    have h0 : n + 1 - 0 - 1 = n := by omega
    rw [h0]
  have ht : List.map ((fun i => v >>> (8 * (n + 1 - i - 1)) % 256) ∘ Nat.succ) (List.range n) =
      List.map (fun i => v >>> (8 * (n - i - 1)) % 256) (List.range n) := by
    apply List.map_congr_left
    intro a _
    simp only [Function.comp_apply]
    have h8 : n + 1 - Nat.succ a - 1 = n - a - 1 := by omega
    rw [h8]
  rw [ht, hh]

theorem pack_array_be_cons (b : Nat) (bs : List Nat) :
    pack_array_be (b :: bs) = (b <<< (8 * bs.length)) ||| pack_array_be bs := by
  rw [pack_array_be, pack_array_be, List.length_cons, pack_array_be_go,
    pack_array_be_go_or _ _ (0 + 1), pack_array_be_go_shift]
  have : bs.length + 1 - 0 - 1 = bs.length := by omega
  rw [this]
  simp

theorem pack_unpack_be (n : Nat) : ∀ v, pack_array_be (unpack_array_be n v) = v % 2 ^ (8 * n) := by
  induction n with
  | zero =>
    intro v
    simp [unpack_array_be, pack_array_be, pack_array_be_go, Nat.mod_one]
  | succ n ih =>
    intro v
    rw [unpack_array_be_succ, pack_array_be_cons]
    have hlen : (unpack_array_be n v).length = n := by simp [unpack_array_be]
    rw [hlen, ih v,
      shiftLeft_or_eq_add _ _ (Nat.mod_lt v (Nat.pos_pow_of_pos _ (by norm_num))),
      Nat.shiftLeft_eq, Nat.shiftRight_eq_div_pow]
    have hpow : (2 : Nat) ^ (8 * (n + 1)) = 2 ^ (8 * n) * 256 := by
      have : 8 * (n + 1) = 8 * n + 8 := by ring
      rw [this, pow_add]
      norm_num
    rw [hpow, Nat.mod_mul]
    ring

/-- Claim C10: for every unsigned integer type (modelled by its byte width
`n`) and every value `v` of that type, packing the byte array produced by
unpacking `v` is the identity, for each endianness. -/
theorem claim_C10 (n v : Nat) (h : v < 2 ^ (8 * n)) :
    pack_array_le (unpack_array_le n v) = v ∧ pack_array_be (unpack_array_be n v) = v := by
  constructor
  · rw [pack_unpack_le n v, Nat.mod_eq_of_lt h]
  · rw [pack_unpack_be n v, Nat.mod_eq_of_lt h]

theorem claim_C10_witness :
    513 < 2 ^ (8 * 2) ∧
      (pack_array_le (unpack_array_le 2 513) = 513 ∧
        pack_array_be (unpack_array_be 2 513) = 513) :=
  ⟨by decide, claim_C10 2 513 (by decide)⟩

/-! ## Concrete-trace claims about the two policies -/

/-- Claim C2, counterexample: on a fresh 3-way Exact-LRU policy the first
three `update()` calls return `0, 1, 2` (`update` pops the tail, which is
way 0), not `2, 1, 0` as the claim states. -/
theorem claim_C2_counterexample :
    Option.map (fun p => p.2) (lru_run_updates (lru_new 3) 3) = some [0, 1, 2] ∧
      Option.map (fun p => p.2) (lru_run_updates (lru_new 3) 3) ≠ some [2, 1, 0] := by
  decide

/-- Claim C2 (amended): on a freshly constructed Exact-LRU policy with
`ways = 3` the internal recency order is `[2,1,0]` (way 2 at the MRU head,
way 0 at the LRU tail), and the first three `update()` calls return 0, then
1, then 2. -/
theorem claim_C2 :
    lru_ways_of (lru_new 3) = [2, 1, 0] ∧
      Option.map (fun p => p.2) (lru_run_updates (lru_new 3) 3) = some [0, 1, 2] := by
  decide

/-- Claim C3, counterexample: on a fresh 2-way Exact-LRU policy,
`allocate(5)` evicts way 0 (the tail), not way 1: way 1 is still tracked,
way 0 is not, and the subsequent `update()` returns 1, not 0. -/
theorem claim_C3_counterexample :
    Option.map (fun p => p.2) ((lru_allocate (lru_new 2) 5).bind lru_update) = some 1 ∧
      Option.map (fun p => p.2) ((lru_allocate (lru_new 2) 5).bind lru_update) ≠ some 0 ∧
      Option.map (fun s => hash_find s.lru_hash 1) (lru_allocate (lru_new 2) 5) =
        some (some 1) ∧
      Option.map (fun s => hash_find s.lru_hash 0) (lru_allocate (lru_new 2) 5) = some none := by
  decide

/-- Claim C3 (amended): on a fresh 2-way Exact-LRU policy (tracked contents
`{1,0}` with way 0 as the LRU tail), `allocate(5)` evicts exactly way 0 —
removing it from the sequence and the mapping — leaving the tracked
sequence `[5,1]` with way 5 as MRU, and a single subsequent `update()`
returns 1. -/
theorem claim_C3 :
    lru_ways_of (lru_new 2) = [1, 0] ∧
      Option.map lru_ways_of (lru_allocate (lru_new 2) 5) = some [5, 1] ∧
      Option.map (fun s => hash_find s.lru_hash 0) (lru_allocate (lru_new 2) 5) = some none ∧
      Option.map (fun p => p.2) ((lru_allocate (lru_new 2) 5).bind lru_update) = some 1 := by
  decide

/-- Claim C4, counterexample: from the fresh 2-way policy, the single
operation `allocate(1)` (way 1 is currently tracked and is not the tail) is
reachable under the claim's "any sequence of operations", yet it leaves the
recency sequence `[1, 1]`, which contains a duplicate way index. -/
theorem claim_C4_counterexample :
    Option.map lru_ways_of (lru_allocate (lru_new 2) 1) = some [1, 1] ∧
      ¬ ([1, 1] : List Nat).Nodup := by
  decide

/-- Claim C5: on a fresh Pseudo-LRU policy with `ways = 4` (tree
`pseudo_build 2`), `touch(0)` followed by `update()` returns way 2, which
lies in `{1,2,3}` and is never 0. -/
theorem claim_C5 :
    pseudo_lru_new 4 = some (Except.ok (pseudo_build 2)) ∧
      (pseudo_update (pseudo_touch (pseudo_build 2) 0)).2 ∈ ([1, 2, 3] : List Nat) ∧
      (pseudo_update (pseudo_touch (pseudo_build 2) 0)).2 ≠ 0 := by
  decide

/-- Claim C6 evaluation: with `ways = 1` the constructed tree is the bare
root node still carrying the sentinel `node_iterator = INT8_MIN = -128`
(`leaf_iterator` is never consumed), and `update()` returns
`size_t(-128) = 2^64 - 128`, not the leaf label 0 required by the
specification. -/
theorem claim_C6 :
    pseudo_lru_new 1 = some (Except.ok (PTree.pleaf (-128) 0)) ∧
      (pseudo_update (PTree.pleaf (-128) 0)).2 = 2 ^ 64 - 128 ∧
      (pseudo_update (PTree.pleaf (-128) 0)).2 ≠ 0 := by
  decide

/-! ## calculate_depth: divergence at 0, termination and the power-of-two test -/

theorem calculate_depth_loop_zero (fuel : Nat) : ∀ i, calculate_depth_loop fuel 0 i = none := by
  induction fuel with
  | zero => intro i; rfl
  | succ fuel ih =>
    intro i
    rw [calculate_depth_loop]
    norm_num
    exact ih (i + 1)

theorem calculate_depth_loop_pow (k : Nat) : ∀ fuel i, 2 ^ k ≤ fuel →
    calculate_depth_loop fuel (2 ^ k) i = some (Except.ok (i + k)) := by
  induction k with
  | zero =>
    intro fuel i hf
    obtain ⟨f, rfl⟩ : ∃ f, fuel = f + 1 := ⟨fuel - 1, by simp at hf; omega⟩
    rw [calculate_depth_loop]
    norm_num
  | succ k ih =>
    intro fuel i hf
    have h2k : 1 ≤ 2 ^ k := Nat.one_le_two_pow
    have hp : 2 ^ (k + 1) = 2 * 2 ^ k := by rw [pow_succ]; ring
    obtain ⟨f, rfl⟩ : ∃ f, fuel = f + 1 := ⟨fuel - 1, by omega⟩
    rw [calculate_depth_loop]
    rw [if_neg (by omega : ¬ 2 ^ (k + 1) = 1),
      if_neg (by omega : ¬ 2 ^ (k + 1) % 2 ≠ 0)]
    have hdiv : 2 ^ (k + 1) / 2 = 2 ^ k := by omega
    rw [hdiv, ih f (i + 1) (by omega)]
    have hik : i + 1 + k = i + (k + 1) := by omega
    rw [hik]

theorem calculate_depth_loop_not_pow : ∀ fuel n i, 1 ≤ n → n ≤ fuel → (¬ ∃ k, n = 2 ^ k) →
    calculate_depth_loop fuel n i =
      some (Except.error "Number of ways must be the power of 2!") := by
  intro fuel
  induction fuel with
  | zero =>
    intro n i h1 h2 _
    exfalso
    omega
  | succ fuel ih =>
    intro n i h1 h2 hnp
    rw [calculate_depth_loop]
    by_cases hone : n = 1
    · exact absurd ⟨0, by omega⟩ hnp
    · rw [if_neg hone]
      by_cases hodd : n % 2 ≠ 0
      · rw [if_pos hodd]
      · rw [if_neg hodd]
        apply ih (n / 2) (i + 1) (by omega) (by omega)
        rintro ⟨k, hk⟩
        apply hnp
        refine ⟨k + 1, ?_⟩
        rw [pow_succ]
        omega

/-- Claim C7: for every `ways ≥ 1`, Pseudo-LRU construction raises the
configuration error if and only if `ways` is not a power of two (in
particular `ways = 3` raises it, while `ways = 4` and `ways = 8` succeed). -/
theorem claim_C7 (ways : Nat) (h : 1 ≤ ways) :
    (∃ e, pseudo_lru_new ways = some (Except.error e)) ↔ ¬ ∃ k, ways = 2 ^ k := by
  constructor
  · rintro ⟨e, he⟩ ⟨k, hk⟩
    subst hk
    simp [pseudo_lru_new, calculate_depth,
      calculate_depth_loop_pow k (2 ^ k) 0 (le_refl _)] at he
  · intro hnp
    refine ⟨"Number of ways must be the power of 2!", ?_⟩
    rw [pseudo_lru_new, calculate_depth,
      calculate_depth_loop_not_pow ways ways 0 h (le_refl ways) hnp]

theorem claim_C7_witness :
    1 ≤ 3 ∧ ((∃ e, pseudo_lru_new 3 = some (Except.error e)) ↔ ¬ ∃ k, (3 : Nat) = 2 ^ k) :=
  ⟨by decide, claim_C7 3 (by decide)⟩

/-- Claim C8 evaluation: with `ways = 0` no recognized policy raises a
configuration error at construction.  Pseudo-LRU construction never
terminates — `calculate_depth`'s loop keeps `numerator = 0` forever, for
every amount of fuel — and LRU construction raises nothing: the C++
`assert(ways != 0)` is a debug-build check, the constructor loop body never
runs, and an empty policy is returned. -/
theorem claim_C8 :
    (∀ fuel i, calculate_depth_loop fuel 0 i = none) ∧
      create_cache_replacement "Pseudo-LRU" 0 = none ∧
      create_cache_replacement "LRU" 0 =
        some (Except.ok (PolicyInstance.lruPolicy (lru_new 0))) ∧
      (lru_new 0).lru_list = [] :=
  ⟨fun fuel i => calculate_depth_loop_zero fuel i, by decide, by decide, by decide⟩

/-! ## The unknown-policy diagnostic message -/

theorem has_sub_chars_append (a : List Char) : ∀ b p, has_sub_chars b p = true →
    has_sub_chars (a ++ b) p = true := by
  induction a with
  | nil => intro b p h; simpa using h
  | cons c a ih =>
    intro b p h
    rw [List.cons_append, has_sub_chars, Bool.or_eq_true]
    exact Or.inr (ih b p h)

theorem str_has_sub_append (a b pat : String) (h : str_has_sub b pat = true) :
    str_has_sub (a ++ b) pat = true := by
  unfold str_has_sub at h ⊢
  have hl : (a ++ b).toList = a.toList ++ b.toList := by
    simp [String.toList]
  rw [hl]
  exact has_sub_chars_append a.toList b.toList pat.toList h

/-- Claim C9, counterexample: the unknown-policy error message produced for
`create("bogus", 4)` does not contain the supported name `"Pseudo-LRU"`
(case-sensitively): it advertises `"pseudo-LRU"` with a lower-case `p`. -/
theorem claim_C9_counterexample :
    create_cache_replacement "bogus" 4 =
        some (Except.error (unknown_policy_message "bogus")) ∧
      str_has_sub (unknown_policy_message "bogus") "Pseudo-LRU" = false := by
  refine ⟨by decide, by decide⟩

/-- Claim C9 (amended): for every name other than exactly `"LRU"` or
`"Pseudo-LRU"` and every way count, `create` raises the unknown-policy
configuration error; its message enumerates `"LRU"` and `"pseudo-LRU"` —
the latter spelled with a lower-case `p`, unlike the accepted name. -/
theorem claim_C9 (name : String) (ways : Nat) (h1 : name ≠ "LRU") (h2 : name ≠ "Pseudo-LRU") :
    create_cache_replacement name ways = some (Except.error (unknown_policy_message name)) ∧
      str_has_sub (unknown_policy_message name) "LRU" = true ∧
      str_has_sub (unknown_policy_message name) "pseudo-LRU" = true := by
  refine ⟨?_, ?_, ?_⟩
  · simp [create_cache_replacement, h1, h2]
  · exact str_has_sub_append ("\"" ++ name) supported_polices_note "LRU" (by decide)
  · exact str_has_sub_append ("\"" ++ name) supported_polices_note "pseudo-LRU" (by decide)

theorem claim_C9_witness :
    ("bogus" : String) ≠ "LRU" ∧ ("bogus" : String) ≠ "Pseudo-LRU" ∧
      (create_cache_replacement "bogus" 4 =
          some (Except.error (unknown_policy_message "bogus")) ∧
        str_has_sub (unknown_policy_message "bogus") "LRU" = true ∧
        str_has_sub (unknown_policy_message "bogus") "pseudo-LRU" = true) :=
  ⟨by decide, by decide, claim_C9 "bogus" 4 (by decide) (by decide)⟩

/-! ## Exact-LRU: the update cycle -/

theorem append_singleton_inj {α : Type} {X Y : List α} {a b : α}
    (h : X ++ [a] = Y ++ [b]) : X = Y ∧ a = b := by
  have h1 := congrArg List.reverse h
  simp only [List.reverse_append, List.reverse_singleton, List.singleton_append,
    List.cons.injEq] at h1
  obtain ⟨hab, hXY⟩ := h1
  refine ⟨?_, hab⟩
  have h2 := congrArg List.reverse hXY
  simpa using h2

theorem lru_new_fold (w : Nat) : ∀ n,
    (List.range n).foldl lru_new_step
        { lru_list := [], lru_hash := [], ways := w, next_id := 0 } =
      { lru_list := ((List.range n).map (fun i => (i, i))).reverse,
        lru_hash := ((List.range n).map (fun i => (i, i))).reverse,
        ways := w, next_id := n } := by
  intro n
  induction n with
  | zero => rfl
  | succ n ih =>
    rw [List.range_succ, List.foldl_append, ih, List.foldl_cons, List.foldl_nil]
    have hfind : (((List.range n).map (fun i => (i, i))).reverse).find?
        (fun p => p.1 == n) = none := by
      rw [List.find?_eq_none]
      intro p hp
      rw [List.mem_reverse, List.mem_map] at hp
      obtain ⟨i, hi, rfl⟩ := hp
      rw [List.mem_range] at hi
      simp only [beq_iff_eq]
      omega
    simp only [lru_new_step, hash_emplace, hfind]
    rw [List.map_append, List.reverse_append]
    simp

theorem lru_update_ways (s : LRUState) (A : List Nat) (w : Nat)
    (h : lru_ways_of s = A ++ [w]) :
    ∃ s1, lru_update s = some (s1, w) ∧ lru_ways_of s1 = w :: A := by
  have hne : s.lru_list ≠ [] := by
    intro hnil
    rw [lru_ways_of, hnil] at h
    simp at h
  obtain ⟨c, hc⟩ : ∃ c, s.lru_list.getLast? = some c := by
    cases hl : s.lru_list.getLast? with
    | none => exact absurd (List.getLast?_eq_none_iff.mp hl) hne
    | some c => exact ⟨c, rfl⟩
  have hdec : s.lru_list.dropLast ++ [c] = s.lru_list := by
    rw [List.getLast?_eq_getLast s.lru_list hne] at hc
    injection hc with hc
    rw [← hc]
    exact List.dropLast_concat_getLast hne
  have hmap : A ++ [w] = (s.lru_list.dropLast.map (fun c => c.2)) ++ [c.2] := by
    rw [← h, lru_ways_of]
    conv_lhs => rw [← hdec]
    rw [List.map_append, List.map_cons, List.map_nil]
  obtain ⟨hA, hw⟩ := append_singleton_inj hmap
  subst hA
  subst hw
  simp only [lru_update, hc]
  exact ⟨_, rfl, by simp [lru_ways_of]⟩

theorem lru_rot_decomp (n t : Nat) (h : 1 ≤ n) :
    lru_rot n t =
      ((List.range (n - 1)).map (fun i => (i + 1 + t) % n)).reverse ++ [t % n] := by
  obtain ⟨m, rfl⟩ : ∃ m, n = m + 1 := ⟨n - 1, by omega⟩
  have h1 : m + 1 - 1 = m := by omega
  rw [lru_rot, List.range_succ_eq_map, List.map_cons, List.map_map, List.reverse_cons, h1]
  have h2 : List.map ((fun i => (i + t) % (m + 1)) ∘ Nat.succ) (List.range m) =
      List.map (fun i => (i + 1 + t) % (m + 1)) (List.range m) := by
    apply List.map_congr_left
    intro a _
    simp only [Function.comp_apply]
  simp only [h2, Nat.zero_add]

theorem lru_rot_succ (n t : Nat) (h : 1 ≤ n) :
    lru_rot n (t + 1) =
      t % n :: ((List.range (n - 1)).map (fun i => (i + 1 + t) % n)).reverse := by
  obtain ⟨m, rfl⟩ : ∃ m, n = m + 1 := ⟨n - 1, by omega⟩
  have h1 : m + 1 - 1 = m := by omega
  rw [lru_rot, List.range_succ, List.map_append, List.reverse_append, h1]
  have h2 : List.map (fun i => (i + (t + 1)) % (m + 1)) (List.range m) =
      List.map (fun i => (i + 1 + t) % (m + 1)) (List.range m) := by
    apply List.map_congr_left
    intro a _
    have h3 : a + (t + 1) = a + 1 + t := by omega
    rw [h3]
  have h4 : (m + (t + 1)) % (m + 1) = t % (m + 1) := by
    have h5 : m + (t + 1) = t + (m + 1) := by omega
    rw [h5, Nat.add_mod_right]
  simp [h2, h4]

theorem lru_run_updates_rot (n : Nat) (h : 1 ≤ n) : ∀ k t s, lru_ways_of s = lru_rot n t →
    ∃ s1, lru_run_updates s k = some (s1, (List.range k).map (fun j => (t + j) % n)) ∧
      lru_ways_of s1 = lru_rot n (t + k) := by
  intro k
  induction k with
  | zero =>
    intro t s hs
    exact ⟨s, by simp [lru_run_updates], by simpa using hs⟩
  | succ k ih =>
    intro t s hs
    rw [lru_rot_decomp n t h] at hs
    obtain ⟨s1, hup, hw⟩ := lru_update_ways s _ _ hs
    have hw1 : lru_ways_of s1 = lru_rot n (t + 1) := by
      rw [hw, lru_rot_succ n t h]
    obtain ⟨s2, hrun, hw2⟩ := ih (t + 1) s1 hw1
    refine ⟨s2, ?_, ?_⟩
    · have houts : (List.range (k + 1)).map (fun j => (t + j) % n) =
          t % n :: (List.range k).map (fun j => (t + 1 + j) % n) := by
        rw [List.range_succ_eq_map, List.map_cons, List.map_map]
        have h7 : List.map ((fun j => (t + j) % n) ∘ Nat.succ) (List.range k) =
            List.map (fun j => (t + 1 + j) % n) (List.range k) := by
          apply List.map_congr_left
          intro a _
          simp only [Function.comp_apply]
          have h8 : t + Nat.succ a = t + 1 + a := by omega
          rw [h8]
        simp only [h7, Nat.add_zero]
      simp only [lru_run_updates, hup, hrun, houts]
    · rw [hw2]
      congr 1
      omega

theorem lru_new_ways (n : Nat) : lru_ways_of (lru_new n) = lru_rot n 0 := by
  rw [lru_new, lru_new_fold n n, lru_ways_of, lru_rot]
  simp only [List.map_reverse]
  congr 1
  rw [List.map_map]
  apply List.map_congr_left
  intro a ha
  rw [List.mem_range] at ha
  simp only [Function.comp_apply]
  have h1 : (a + 0) % n = a := by
    rw [Nat.add_zero, Nat.mod_eq_of_lt ha]
  rw [h1]

/-- Claim C1: for every `n ≥ 1`, after any number `j` of complete blocks of
`n` `update()` calls on a freshly constructed `n`-way Exact-LRU policy, the
next `n` consecutive `update()` calls return exactly `0, 1, …, n-1` in that
order (way 0 is the oldest at construction); in particular the first block
(`j = 0`) does, and the cycle repeats for every block. -/
theorem claim_C1 (n : Nat) (h : 1 ≤ n) (j : Nat) :
    ∃ s rest s1, lru_run_updates (lru_new n) (j * n) = some (s, rest) ∧
      lru_run_updates s n = some (s1, List.range n) := by
  obtain ⟨s, hrun, hw⟩ := lru_run_updates_rot n h (j * n) 0 (lru_new n) (lru_new_ways n)
  obtain ⟨s1, hrun1, hw1⟩ := lru_run_updates_rot n h n (0 + j * n) s hw
  refine ⟨s, _, s1, hrun, ?_⟩
  rw [hrun1]
  have houts : (List.range n).map (fun i => (0 + j * n + i) % n) = List.range n := by
    have h5 : (List.range n).map (fun i => (0 + j * n + i) % n) =
        (List.range n).map (fun i => i) := by
      apply List.map_congr_left
      intro a ha
      rw [List.mem_range] at ha
      have h6 : 0 + j * n + a = a + j * n := by omega
      rw [h6, Nat.add_mul_mod_self_right, Nat.mod_eq_of_lt ha]
    rw [h5, List.map_id']
  rw [houts]

theorem claim_C1_witness :
    1 ≤ 2 ∧ ∃ s rest s1, lru_run_updates (lru_new 2) (1 * 2) = some (s, rest) ∧
      lru_run_updates s 2 = some (s1, List.range 2) :=
  ⟨by decide, claim_C1 2 (by decide) 1⟩

/-! ## Exact-LRU: hash-map helper lemmas -/

theorem hash_find_none_iff (h : List (Nat × Nat)) (way : Nat) :
    hash_find h way = none ↔ ∀ p ∈ h, p.1 ≠ way := by
  simp [hash_find, List.find?_eq_none]

theorem hash_find_cons_of_eq (q : Nat × Nat) (h : List (Nat × Nat)) (way : Nat)
    (heq : q.1 = way) : hash_find (q :: h) way = some q.2 := by
  rw [hash_find, List.find?_cons_of_pos _ (by simp [heq])]
  rfl

theorem hash_find_cons_of_ne (q : Nat × Nat) (h : List (Nat × Nat)) (way : Nat)
    (hne : q.1 ≠ way) : hash_find (q :: h) way = hash_find h way := by
  rw [hash_find, List.find?_cons_of_neg _ (by simp [hne]), hash_find]

theorem hash_emplace_absent (h : List (Nat × Nat)) (way id : Nat)
    (hnone : hash_find h way = none) : hash_emplace h way id = (way, id) :: h := by
  rw [hash_find] at hnone
  rw [hash_emplace, Option.map_eq_none'.mp hnone]

theorem hash_find_eq_some_iff_mem (h : List (Nat × Nat))
    (hnd : (h.map (fun p => p.1)).Nodup) (way id : Nat) :
    hash_find h way = some id ↔ (way, id) ∈ h := by
  induction h with
  | nil => simp [hash_find]
  | cons q h ih =>
    rw [List.map_cons, List.nodup_cons] at hnd
    obtain ⟨hq1, hnd2⟩ := hnd
    by_cases hq : q.1 = way
    · rw [hash_find_cons_of_eq q h way hq]
      constructor
      · intro he
        injection he with he
        obtain ⟨qa, qb⟩ := q
        simp only at hq he
        subst hq
        subst he
        exact List.mem_cons_self _ _
      · intro hm
        rcases List.mem_cons.mp hm with heq | hmem
        · rw [← heq]
        · exact absurd (List.mem_map_of_mem (fun p => p.1) hmem) (hq ▸ hq1)
    · rw [hash_find_cons_of_ne q h way hq, ih hnd2]
      constructor
      · exact fun hm => List.mem_cons_of_mem q hm
      · intro hm
        rcases List.mem_cons.mp hm with heq | hmem
        · exact absurd (by rw [← heq] : q.1 = way) hq
        · exact hmem

theorem find?_map_replace (way id : Nat) : ∀ h : List (Nat × Nat),
    (∃ e, h.find? (fun p => p.1 == way) = some e) →
    (h.map (fun p => if p.1 == way then (way, id) else p)).find? (fun p => p.1 == way) =
      some (way, id) := by
  intro h
  induction h with
  | nil => rintro ⟨e, he⟩; simp at he
  | cons q h ih =>
    rintro ⟨e, he⟩
    by_cases hq : q.1 = way
    · rw [List.map_cons, if_pos (by simp [hq]), List.find?_cons_of_pos _ (by simp)]
    · rw [List.map_cons, if_neg (by simp [hq]), List.find?_cons_of_neg _ (by simp [hq])]
      apply ih
      rw [List.find?_cons_of_neg _ (by simp [hq])] at he
      exact ⟨e, he⟩

theorem find?_map_replace_ne (way id way' : Nat) (hne : way' ≠ way) :
    ∀ h : List (Nat × Nat),
    (h.map (fun p => if p.1 == way then (way, id) else p)).find? (fun p => p.1 == way') =
      h.find? (fun p => p.1 == way') := by
  intro h
  induction h with
  | nil => rfl
  | cons q h ih =>
    rw [List.map_cons]
    by_cases hq : q.1 = way
    · rw [if_pos (by simp [hq]),
        List.find?_cons_of_neg _ (by simp [Ne.symm hne]),
        List.find?_cons_of_neg _ (by simp [hq, Ne.symm hne])]
      exact ih
    · rw [if_neg (by simp [hq])]
      by_cases hq' : q.1 = way'
      · rw [List.find?_cons_of_pos _ (by simp [hq']), List.find?_cons_of_pos _ (by simp [hq'])]
      · rw [List.find?_cons_of_neg _ (by simp [hq']), List.find?_cons_of_neg _ (by simp [hq'])]
        exact ih

theorem keys_map_replace (way id : Nat) (h : List (Nat × Nat)) :
    (h.map (fun p => if p.1 == way then (way, id) else p)).map (fun p => p.1) =
      h.map (fun p => p.1) := by
  rw [List.map_map]
  apply List.map_congr_left
  intro p _
  by_cases hq : p.1 = way
  · simp [hq]
  · simp [hq]

theorem hash_insert_or_assign_eq (h : List (Nat × Nat)) (way id : Nat)
    (hp : ∃ q, h.find? (fun p => p.1 == way) = some q) :
    hash_insert_or_assign h way id = h.map (fun p => if p.1 == way then (way, id) else p) := by
  obtain ⟨q, hq⟩ := hp
  rw [hash_insert_or_assign, hq]

theorem hash_insert_or_assign_find_self (h : List (Nat × Nat)) (way id : Nat)
    (hp : ∃ q, h.find? (fun p => p.1 == way) = some q) :
    hash_find (hash_insert_or_assign h way id) way = some id := by
  rw [hash_insert_or_assign_eq h way id hp, hash_find, find?_map_replace way id h hp]
  rfl

theorem hash_insert_or_assign_find_ne (h : List (Nat × Nat)) (way id way' : Nat)
    (hne : way' ≠ way) (hp : ∃ q, h.find? (fun p => p.1 == way) = some q) :
    hash_find (hash_insert_or_assign h way id) way' = hash_find h way' := by
  rw [hash_insert_or_assign_eq h way id hp, hash_find,
    find?_map_replace_ne way id way' hne h, hash_find]

theorem hash_erase_find_self (h : List (Nat × Nat)) (way : Nat)
    (hnd : (h.map (fun p => p.1)).Nodup) : hash_find (hash_erase h way) way = none := by
  induction h with
  | nil => rfl
  | cons q h ih =>
    rw [List.map_cons, List.nodup_cons] at hnd
    obtain ⟨hq1, hnd2⟩ := hnd
    by_cases hq : q.1 = way
    · rw [hash_erase, List.eraseP_cons_of_pos (by simp [hq])]
      rw [hash_find_none_iff]
      intro p hp hpw
      exact hq1 (by rw [hq, ← hpw]; exact List.mem_map_of_mem (fun p => p.1) hp)
    · rw [hash_erase, List.eraseP_cons_of_neg (by simp [hq])]
      rw [hash_find_cons_of_ne q _ way hq]
      exact ih hnd2

theorem hash_erase_find_ne (h : List (Nat × Nat)) (way way' : Nat) (hne : way' ≠ way) :
    hash_find (hash_erase h way) way' = hash_find h way' := by
  induction h with
  | nil => rfl
  | cons q h ih =>
    by_cases hq : q.1 = way
    · rw [hash_erase, List.eraseP_cons_of_pos (by simp [hq])]
      rw [hash_find_cons_of_ne q h way' (by rw [hq]; exact Ne.symm hne)]
    · rw [hash_erase, List.eraseP_cons_of_neg (by simp [hq])]
      by_cases hq' : q.1 = way'
      · rw [hash_find_cons_of_eq q _ way' hq', hash_find_cons_of_eq q h way' hq']
      · rw [hash_find_cons_of_ne q _ way' hq', hash_find_cons_of_ne q h way' hq']
        exact ih

theorem find?_cons_eraseP_perm {α : Type} (p : α → Bool) : ∀ (l : List α) (c : α),
    l.find? p = some c → List.Perm (c :: l.eraseP p) l := by
  intro l
  induction l with
  | nil => intro c hc; simp at hc
  | cons a l ih =>
    intro c hc
    by_cases ha : p a
    · rw [List.find?_cons_of_pos _ ha] at hc
      injection hc with hc
      rw [List.eraseP_cons_of_pos ha, hc]
    · rw [List.find?_cons_of_neg _ ha] at hc
      rw [List.eraseP_cons_of_neg ha]
      have h1 : List.Perm (c :: a :: l.eraseP p) (a :: c :: l.eraseP p) :=
        List.Perm.swap a c _
      exact h1.trans (List.Perm.cons a (ih c hc))

theorem getLast?_decomp {α : Type} {l : List α} {c : α} (hc : l.getLast? = some c) :
    l.dropLast ++ [c] = l := by
  have hne : l ≠ [] := by
    intro hnil
    rw [hnil] at hc
    simp at hc
  rw [List.getLast?_eq_getLast l hne] at hc
  injection hc with hc
  rw [← hc]
  exact List.dropLast_concat_getLast hne

theorem nodup_append_singleton {α : Type} {L : List α} {a : α} (h : (L ++ [a]).Nodup) :
    L.Nodup ∧ a ∉ L := by
  rw [List.nodup_append] at h
  obtain ⟨h1, _, h3⟩ := h
  exact ⟨h1, fun ha => h3 ha (List.mem_singleton_self a)⟩

/-! ## Exact-LRU: preservation of the consistency invariant -/

theorem lru_wf_of_perm (s : LRUState) (l1 : List (Nat × Nat)) (hwf : LRUWF s)
    (hperm : List.Perm l1 s.lru_list) : LRUWF { s with lru_list := l1 } := by
  obtain ⟨hnid, hnway, hnkeys, hiff, hlen, hle, hpos, hfresh⟩ := hwf
  have hlen1 := hperm.length_eq
  refine ⟨?_, ?_, hnkeys, ?_, ?_, ?_, ?_, ?_⟩
  · exact ((hperm.map (fun c => c.1)).nodup_iff).mpr hnid
  · exact ((hperm.map (fun c => c.2)).nodup_iff).mpr hnway
  · intro way id
    exact (hiff way id).trans hperm.mem_iff.symm
  · exact hlen.trans hlen1.symm
  · show l1.length ≤ s.ways
    omega
  · show 1 ≤ l1.length
    omega
  · intro c hc
    exact hfresh c (hperm.mem_iff.mp hc)

theorem lru_touch_wf {s : LRUState} {way : Nat} {s1 : LRUState} (hwf : LRUWF s)
    (hs : lru_touch s way = some s1) : LRUWF s1 := by
  cases hf : hash_find s.lru_hash way with
  | none => simp [lru_touch, hf] at hs
  | some id =>
    cases hfind : s.lru_list.find? (fun c => c.1 == id) with
    | none => simp [lru_touch, hf, hfind] at hs
    | some cell =>
      simp only [lru_touch, hf, hfind, Option.some.injEq] at hs
      subst hs
      exact lru_wf_of_perm s _ hwf (find?_cons_eraseP_perm _ s.lru_list cell hfind)

theorem lru_set_to_erase_wf {s : LRUState} {way : Nat} {s1 : LRUState} (hwf : LRUWF s)
    (hs : lru_set_to_erase s way = some s1) : LRUWF s1 := by
  cases hf : hash_find s.lru_hash way with
  | none => simp [lru_set_to_erase, hf] at hs
  | some id =>
    cases hfind : s.lru_list.find? (fun c => c.1 == id) with
    | none => simp [lru_set_to_erase, hf, hfind] at hs
    | some cell =>
      simp only [lru_set_to_erase, hf, hfind, Option.some.injEq] at hs
      subst hs
      have hp1 : List.Perm (s.lru_list.eraseP (fun c => c.1 == id) ++ [cell])
          (cell :: s.lru_list.eraseP (fun c => c.1 == id)) :=
        List.perm_append_singleton cell _
      exact lru_wf_of_perm s _ hwf (hp1.trans (find?_cons_eraseP_perm _ s.lru_list cell hfind))

theorem lru_update_wf {s : LRUState} {s1 : LRUState} {w : Nat} (hwf : LRUWF s)
    (hs : lru_update s = some (s1, w)) : LRUWF s1 := by
  obtain ⟨hnid, hnway, hnkeys, hiff, hlen, hle, hpos, hfresh⟩ := hwf
  cases hgl : s.lru_list.getLast? with
  | none =>
    exfalso
    rw [List.getLast?_eq_none_iff] at hgl
    rw [hgl] at hpos
    simp at hpos
  | some c =>
    simp only [lru_update, hgl, Option.some.injEq, Prod.mk.injEq] at hs
    obtain ⟨hs1, hweq⟩ := hs
    subst hs1
    have hdec := getLast?_decomp hgl
    have hmapi : s.lru_list.map (fun x => x.1) =
        s.lru_list.dropLast.map (fun x => x.1) ++ [c.1] := by
      conv_lhs => rw [← hdec]
      rw [List.map_append]
      rfl
    have hmapw : s.lru_list.map (fun x => x.2) =
        s.lru_list.dropLast.map (fun x => x.2) ++ [c.2] := by
      conv_lhs => rw [← hdec]
      rw [List.map_append]
      rfl
    rw [hmapi] at hnid
    obtain ⟨hnidD, hcidD⟩ := nodup_append_singleton hnid
    rw [hmapw] at hnway
    obtain ⟨hnwayD, hcwayD⟩ := nodup_append_singleton hnway
    have hcmem : c ∈ s.lru_list := by
      rw [← hdec]
      exact List.mem_append_right _ (List.mem_singleton_self c)
    have hhf : hash_find s.lru_hash c.2 = some c.1 := (hiff c.2 c.1).mpr hcmem
    have hpresent : ∃ q, s.lru_hash.find? (fun p => p.1 == c.2) = some q := by
      rw [hash_find] at hhf
      obtain ⟨q, hq, _⟩ := Option.map_eq_some'.mp hhf
      exact ⟨q, hq⟩
    have hld : s.lru_list.length = s.lru_list.dropLast.length + 1 := by
      conv_lhs => rw [← hdec]
      rw [List.length_append]
      simp
    refine ⟨?_, ?_, ?_, ?_, ?_, ?_, ?_, ?_⟩
    · simp only [List.map_cons, List.nodup_cons]
      constructor
      · intro hmem
        rw [List.mem_map] at hmem
        obtain ⟨x, hx, hx1⟩ := hmem
        have hxl : x ∈ s.lru_list := by
          rw [← hdec]
          exact List.mem_append_left _ hx
        have := hfresh x hxl
        omega
      · exact hnidD
    · simp only [List.map_cons, List.nodup_cons]
      exact ⟨hcwayD, hnwayD⟩
    · rw [hash_insert_or_assign_eq _ _ _ hpresent, keys_map_replace]
      exact hnkeys
    · intro way' id'
      by_cases hway' : way' = c.2
      · subst hway'
        rw [hash_insert_or_assign_find_self _ _ _ hpresent]
        constructor
        · intro he
          injection he with he
          rw [← he]
          exact List.mem_cons_self _ _
        · intro hm
          rcases List.mem_cons.mp hm with heq | hmem
          · rw [Prod.mk.injEq] at heq
            rw [heq.1]
          · exact absurd (List.mem_map_of_mem (fun x => x.2) hmem) hcwayD
      · rw [hash_insert_or_assign_find_ne _ _ _ _ hway' hpresent, hiff way' id']
        constructor
        · intro hm
          rw [← hdec] at hm
          rcases List.mem_append.mp hm with hd | hc2
          · exact List.mem_cons_of_mem _ hd
          · rw [List.mem_singleton] at hc2
            exact absurd (congrArg Prod.snd hc2) hway'
        · intro hm
          rcases List.mem_cons.mp hm with heq | hmem
          · exact absurd (congrArg Prod.snd heq) hway'
          · rw [← hdec]
            exact List.mem_append_left _ hmem
    · rw [hash_insert_or_assign_eq _ _ _ hpresent, List.length_map, List.length_cons]
      omega
    · rw [List.length_cons]
      show s.lru_list.dropLast.length + 1 ≤ s.ways
      omega
    · rw [List.length_cons]
      omega
    · intro x hx
      rcases List.mem_cons.mp hx with rfl | hmem
      · exact Nat.lt_succ_self _
      · have hxl : x ∈ s.lru_list := by
          rw [← hdec]
          exact List.mem_append_left _ hmem
        have := hfresh x hxl
        show x.1 < s.next_id + 1
        omega

theorem mem_hash_erase_of_mem (way : Nat) (p : Nat × Nat) (hne : p.1 ≠ way) :
    ∀ h : List (Nat × Nat), p ∈ h → p ∈ hash_erase h way := by
  intro h
  induction h with
  | nil => intro hp; simp at hp
  | cons q t ih =>
    intro hp
    rw [hash_erase]
    by_cases hq : q.1 = way
    · rw [List.eraseP_cons_of_pos (by simp [hq])]
      rcases List.mem_cons.mp hp with heq | hmem
      · exact absurd (by rw [heq]; exact hq) hne
      · exact hmem
    · rw [List.eraseP_cons_of_neg (by simp [hq])]
      rcases List.mem_cons.mp hp with heq | hmem
      · rw [heq]
        exact List.mem_cons_self _ _
      · exact List.mem_cons_of_mem _ (ih hmem)

theorem lru_allocate_wf {s : LRUState} {way : Nat} {s1 : LRUState} (hwf : LRUWF s)
    (hway : hash_find s.lru_hash way = none ∨
      (s.ways ≤ s.lru_hash.length ∧ Option.map (fun c => c.2) s.lru_list.getLast? = some way))
    (hs : lru_allocate s way = some s1) : LRUWF s1 := by
  obtain ⟨hnid, hnway, hnkeys, hiff, hlen, hle, hpos, hfresh⟩ := hwf
  by_cases hfull : s.ways ≤ s.lru_hash.length
  · cases hgl : s.lru_list.getLast? with
    | none =>
      exfalso
      rw [List.getLast?_eq_none_iff] at hgl
      rw [hgl] at hpos
      simp at hpos
    | some c =>
      simp only [lru_allocate, if_pos hfull, erase_lru_element, hgl, Option.some.injEq] at hs
      subst hs
      have hdec := getLast?_decomp hgl
      have hmapi : s.lru_list.map (fun x => x.1) =
          s.lru_list.dropLast.map (fun x => x.1) ++ [c.1] := by
        conv_lhs => rw [← hdec]
        rw [List.map_append]
        rfl
      have hmapw : s.lru_list.map (fun x => x.2) =
          s.lru_list.dropLast.map (fun x => x.2) ++ [c.2] := by
        conv_lhs => rw [← hdec]
        rw [List.map_append]
        rfl
      rw [hmapi] at hnid
      obtain ⟨hnidD, hcidD⟩ := nodup_append_singleton hnid
      rw [hmapw] at hnway
      obtain ⟨hnwayD, hcwayD⟩ := nodup_append_singleton hnway
      have hcmem : c ∈ s.lru_list := by
        rw [← hdec]
        exact List.mem_append_right _ (List.mem_singleton_self c)
      have hhf : hash_find s.lru_hash c.2 = some c.1 := (hiff c.2 c.1).mpr hcmem
      have hpresent : ∃ q, s.lru_hash.find? (fun p => p.1 == c.2) = some q := by
        rw [hash_find] at hhf
        obtain ⟨q, hq, _⟩ := Option.map_eq_some'.mp hhf
        exact ⟨q, hq⟩
      have hld : s.lru_list.length = s.lru_list.dropLast.length + 1 := by
        conv_lhs => rw [← hdec]
        rw [List.length_append]
        simp
      have hkeysE : ((hash_erase s.lru_hash c.2).map (fun p => p.1)).Nodup :=
        List.Nodup.sublist ((List.eraseP_sublist _).map _) hnkeys
      have hlenE : (hash_erase s.lru_hash c.2).length + 1 = s.lru_hash.length := by
        obtain ⟨q, hq⟩ := hpresent
        have := (find?_cons_eraseP_perm _ s.lru_hash q hq).length_eq
        simpa using this
      have hfE : hash_find (hash_erase s.lru_hash c.2) way = none := by
        rcases hway with hnone | ⟨_, htail⟩
        · have hne : way ≠ c.2 := by
            intro heq
            rw [heq, hhf] at hnone
            exact Option.noConfusion hnone
          rw [hash_erase_find_ne _ _ _ hne]
          exact hnone
        · have hwc : way = c.2 := by
            rw [hgl] at htail
            simp only [Option.map_some'] at htail
            injection htail with htail
            exact htail.symm
          rw [hwc]
          exact hash_erase_find_self _ _ hnkeys
      have hwD : way ∉ s.lru_list.dropLast.map (fun x => x.2) := by
        rcases hway with hnone | ⟨_, htail⟩
        · intro hmem
          rw [List.mem_map] at hmem
          obtain ⟨x, hx, hx2⟩ := hmem
          have hxl : (x.1, x.2) ∈ s.lru_list := by
            rw [← hdec]
            exact List.mem_append_left _ hx
          rw [hx2] at hxl
          have := (hiff way x.1).mpr hxl
          rw [hnone] at this
          exact Option.noConfusion this
        · have hwc : way = c.2 := by
            rw [hgl] at htail
            simp only [Option.map_some'] at htail
            injection htail with htail
            exact htail.symm
          rw [hwc]
          exact hcwayD
      rw [hash_emplace_absent _ _ _ hfE]
      refine ⟨?_, ?_, ?_, ?_, ?_, ?_, ?_, ?_⟩
      · simp only [List.map_cons, List.nodup_cons]
        constructor
        · intro hmem
          rw [List.mem_map] at hmem
          obtain ⟨x, hx, hx1⟩ := hmem
          have hxl : x ∈ s.lru_list := by
            rw [← hdec]
            exact List.mem_append_left _ hx
          have := hfresh x hxl
          omega
        · exact hnidD
      · simp only [List.map_cons, List.nodup_cons]
        exact ⟨hwD, hnwayD⟩
      · simp only [List.map_cons, List.nodup_cons]
        constructor
        · intro hmem
          rw [List.mem_map] at hmem
          obtain ⟨p, hp, hp1⟩ := hmem
          rw [hash_find_none_iff] at hfE
          exact hfE p hp hp1
        · exact hkeysE
      · intro way' id'
        by_cases hway' : way' = way
        · subst hway'
          rw [hash_find_cons_of_eq (way', s.next_id) _ way' rfl]
          constructor
          · intro he
            injection he with he
            rw [← he]
            exact List.mem_cons_self _ _
          · intro hm
            rcases List.mem_cons.mp hm with heq | hmem
            · rw [Prod.mk.injEq] at heq
              rw [heq.1]
            · exact absurd (List.mem_map_of_mem (fun x => x.2) hmem) hwD
        · rw [hash_find_cons_of_ne (way, s.next_id) _ way' (fun hh => hway' hh.symm)]
          by_cases hwc2 : way' = c.2
          · subst hwc2
            rw [hash_erase_find_self _ _ hnkeys]
            constructor
            · intro he
              exact Option.noConfusion he
            · intro hm
              rcases List.mem_cons.mp hm with heq | hmem
              · exact absurd (congrArg Prod.snd heq) hway'
              · exact absurd (List.mem_map_of_mem (fun x => x.2) hmem) hcwayD
          · rw [hash_erase_find_ne _ _ _ hwc2, hiff way' id']
            constructor
            · intro hm
              rw [← hdec] at hm
              rcases List.mem_append.mp hm with hd | hc2
              · exact List.mem_cons_of_mem _ hd
              · rw [List.mem_singleton] at hc2
                exact absurd (congrArg Prod.snd hc2) hwc2
            · intro hm
              rcases List.mem_cons.mp hm with heq | hmem
              · exact absurd (congrArg Prod.snd heq) hway'
              · rw [← hdec]
                exact List.mem_append_left _ hmem
      · rw [List.length_cons, List.length_cons]
        omega
      · rw [List.length_cons]
        show s.lru_list.dropLast.length + 1 ≤ s.ways
        omega
      · rw [List.length_cons]
        omega
      · intro x hx
        rcases List.mem_cons.mp hx with rfl | hmem
        · exact Nat.lt_succ_self _
        · have hxl : x ∈ s.lru_list := by
            rw [← hdec]
            exact List.mem_append_left _ hmem
          have := hfresh x hxl
          show x.1 < s.next_id + 1
          omega
  · have hnone : hash_find s.lru_hash way = none := by
      rcases hway with hnone | ⟨hfull2, _⟩
      · exact hnone
      · exact absurd hfull2 hfull
    simp only [lru_allocate, if_neg hfull, Option.some.injEq] at hs
    subst hs
    rw [hash_emplace_absent _ _ _ hnone]
    have hwnotin : way ∉ s.lru_list.map (fun x => x.2) := by
      intro hmem
      rw [List.mem_map] at hmem
      obtain ⟨x, hx, hx2⟩ := hmem
      have hxl : (x.1, x.2) ∈ s.lru_list := hx
      rw [hx2] at hxl
      have := (hiff way x.1).mpr hxl
      rw [hnone] at this
      exact Option.noConfusion this
    refine ⟨?_, ?_, ?_, ?_, ?_, ?_, ?_, ?_⟩
    · simp only [List.map_cons, List.nodup_cons]
      constructor
      · intro hmem
        rw [List.mem_map] at hmem
        obtain ⟨x, hx, hx1⟩ := hmem
        have := hfresh x hx
        omega
      · exact hnid
    · simp only [List.map_cons, List.nodup_cons]
      exact ⟨hwnotin, hnway⟩
    · simp only [List.map_cons, List.nodup_cons]
      constructor
      · intro hmem
        rw [List.mem_map] at hmem
        obtain ⟨p, hp, hp1⟩ := hmem
        rw [hash_find_none_iff] at hnone
        exact hnone p hp hp1
      · exact hnkeys
    · intro way' id'
      by_cases hway' : way' = way
      · subst hway'
        rw [hash_find_cons_of_eq (way', s.next_id) _ way' rfl]
        constructor
        · intro he
          injection he with he
          rw [← he]
          exact List.mem_cons_self _ _
        · intro hm
          rcases List.mem_cons.mp hm with heq | hmem
          · rw [Prod.mk.injEq] at heq
            rw [heq.1]
          · exact absurd (List.mem_map_of_mem (fun x => x.2) hmem) hwnotin
      · rw [hash_find_cons_of_ne (way, s.next_id) _ way' (fun hh => hway' hh.symm),
          hiff way' id']
        constructor
        · exact fun hm => List.mem_cons_of_mem _ hm
        · intro hm
          rcases List.mem_cons.mp hm with heq | hmem
          · exact absurd (congrArg Prod.snd heq) hway'
          · exact hmem
    · rw [List.length_cons, List.length_cons]
      omega
    · rw [List.length_cons]
      show s.lru_list.length + 1 ≤ s.ways
      omega
    · rw [List.length_cons]
      omega
    · intro x hx
      rcases List.mem_cons.mp hx with rfl | hmem
      · exact Nat.lt_succ_self _
      · have := hfresh x hmem
        show x.1 < s.next_id + 1
        omega

theorem lru_new_wf (n : Nat) (h : 1 ≤ n) : LRUWF (lru_new n) := by
  rw [lru_new, lru_new_fold n n]
  have hkeys : (((List.range n).map (fun i => (i, i))).reverse.map (fun p => p.1)) =
      (List.range n).reverse := by
    rw [List.map_reverse, List.map_map]
    congr 1
    have hcg : List.map ((fun p => p.1) ∘ fun i => (i, i)) (List.range n) =
        List.map (fun i => i) (List.range n) := by
      apply List.map_congr_left
      intro a _
      rfl
    rw [hcg, List.map_id']
  have hvals : (((List.range n).map (fun i => (i, i))).reverse.map (fun p => p.2)) =
      (List.range n).reverse := by
    rw [List.map_reverse, List.map_map]
    congr 1
    have hcg : List.map ((fun p => p.2) ∘ fun i => (i, i)) (List.range n) =
        List.map (fun i => i) (List.range n) := by
      apply List.map_congr_left
      intro a _
      rfl
    rw [hcg, List.map_id']
  have hmem : ∀ id way : Nat, (id, way) ∈ ((List.range n).map (fun i => (i, i))).reverse ↔
      (id = way ∧ way < n) := by
    intro id way
    rw [List.mem_reverse, List.mem_map]
    constructor
    · rintro ⟨i, hi, heq⟩
      rw [List.mem_range] at hi
      rw [Prod.mk.injEq] at heq
      obtain ⟨h1, h2⟩ := heq
      subst h1
      subst h2
      exact ⟨rfl, hi⟩
    · rintro ⟨rfl, h2⟩
      exact ⟨id, List.mem_range.mpr h2, rfl⟩
  have hlenl : (((List.range n).map (fun i => (i, i))).reverse).length = n := by
    simp
  refine ⟨?_, ?_, ?_, ?_, ?_, ?_, ?_, ?_⟩
  · rw [hkeys, List.nodup_reverse]
    exact List.nodup_range n
  · rw [hvals, List.nodup_reverse]
    exact List.nodup_range n
  · rw [hkeys, List.nodup_reverse]
    exact List.nodup_range n
  · intro way id
    rw [hash_find_eq_some_iff_mem _
      (by rw [hkeys, List.nodup_reverse]; exact List.nodup_range n) way id]
    rw [hmem way id, hmem id way]
    constructor
    · rintro ⟨rfl, hb⟩
      exact ⟨rfl, hb⟩
    · rintro ⟨rfl, hb⟩
      exact ⟨rfl, hb⟩
  · rfl
  · show (((List.range n).map (fun i => (i, i))).reverse).length ≤ n
    omega
  · show 1 ≤ (((List.range n).map (fun i => (i, i))).reverse).length
    omega
  · intro c hc
    have := (hmem c.1 c.2).mp hc
    show c.1 < n
    omega

theorem lru_reach_wf {s : LRUState} (h : LRUReach s) : LRUWF s := by
  induction h with
  | init n hn => exact lru_new_wf n hn
  | touch s way s1 hr hs ih => exact lru_touch_wf ih hs
  | set_to_erase s way s1 hr hs ih => exact lru_set_to_erase_wf ih hs
  | update s s1 w hr hs ih => exact lru_update_wf ih hs
  | allocate s way s1 hr hway hs ih => exact lru_allocate_wf ih hway hs

/-- Claim C4 (amended): every state reachable from a freshly constructed
Exact-LRU policy by successful operations — `touch` or `set_to_erase` on
tracked ways, `update`, and `allocate` restricted to a way index that is
either currently untracked or is the LRU way about to be evicted from a
full policy — satisfies the consistency invariant: the mapping and the
sequence mention exactly the same ways (each way's recorded node holds that
way), the sequence has no duplicate way indices, and its length never
exceeds `ways`.  (Unrestricted `allocate` falsifies the invariant, see the
counterexample.) -/
theorem claim_C4 (s : LRUState) (h : LRUReach s) : LRUConsistent s := by
  obtain ⟨hnid, hnway, hnkeys, hiff, hlen, hle, hpos, hfresh⟩ := lru_reach_wf h
  refine ⟨?_, ?_, hnway, hle⟩
  · intro way id hf
    exact (hiff way id).mp hf
  · intro c hc
    exact (hiff c.2 c.1).mpr hc

theorem claim_C4_witness : LRUConsistent (lru_new 2) :=
  claim_C4 (lru_new 2) (LRUReach.init 2 (by decide))
